import Mathlib

/-!
# Verification of the insider-trade extraction pipeline

A shallow embedding of the streaming ingestion and extraction pipeline:
the Trade Extractor (`app/internals/utils.py`, function
`extract_insider_trades_info_single` and its helpers) and the Stream
Connection Manager / receive loop (`stream.py`, function `main`).

Python dictionaries with possibly-missing keys are embedded as structures
with `Option` fields.  A required access `d["k"]` (which raises `KeyError`
when the key is absent) becomes `getItem : Option α → Except Unit α`;
a defaulted access `d.get("k", v)` becomes `Option.getD`.  Numbers are
embedded as `ℚ`.
-/

namespace InsiderTrades

/-- Python `d["key"]`: required field access, `KeyError` when absent. -/
def getItem {α : Type} : Option α → Except Unit α
  | some a => Except.ok a
  | none => Except.error ()

/-- `transaction["amounts"]` dictionary: `shares` and `pricePerShare` keys.
`shares` is accessed with `["shares"]` (required) in the source,
`pricePerShare` with `.get("pricePerShare", 0)`. -/
structure Amounts where
  shares : Option ℚ
  pricePerShare : Option ℚ
  deriving Repr, DecidableEq

/-- `transaction["ownershipNature"]`: `directOrIndirectOwnership` is accessed
with `[...]` (required), `natureOfOwnership` with `.get(...)` (optional,
`None` when absent — `None` is itself a legal grouping key in the source). -/
structure OwnershipNature where
  directOrIndirectOwnership : Option String
  natureOfOwnership : Option String
  deriving Repr, DecidableEq

/-- `transaction["postTransactionAmounts"]`: its
`sharesOwnedFollowingTransaction` key is read with `.get(..., 0)` in
`extract_last_item` and with an explicit `in` check for holdings. -/
structure PostTransactionAmounts where
  sharesOwnedFollowingTransaction : Option ℚ
  deriving Repr, DecidableEq

/-- One entry of `nonDerivativeTable.transactions`.  Every field that the
source reads with a raising `[...]` access is an `Option` here, so that the
embedding can express the behaviour on documents missing that field.
`coding_code` collapses `transaction["coding"]["code"]` (both accesses are
required in the source, so a missing `coding` and a missing `code` are
observationally the same `KeyError`). -/
structure Transaction where
  coding_code : Option String
  amounts : Option Amounts
  ownershipNature : Option OwnershipNature
  postTransactionAmounts : Option PostTransactionAmounts
  deriving Repr, DecidableEq

/-- One entry of `nonDerivativeTable.holdings`.  The source guards both key
accesses (`"postTransactionAmounts" in x` and
`"sharesOwnedFollowingTransaction" in x[...]`), so both levels are `Option`. -/
structure Holding where
  postTransactionAmounts : Option PostTransactionAmounts
  deriving Repr, DecidableEq

/-- `insider_trade["issuer"]`. -/
structure Issuer where
  tradingSymbol : String
  name : String
  cik : String
  deriving Repr, DecidableEq

/-- The filing document consumed by the Trade Extractor.  Top-level metadata
fields (`id`, `accessionNo`, ...) are plain: no claim concerns their absence.
`holdings` embeds `nonDerivativeTable.get("holdings", False)`: an absent or
empty (falsy) holdings key and the empty list produce identical extractor
output, so both are the empty list here. -/
structure FilingDocument where
  id : String
  issuer : Issuer
  reportingOwnerName : String
  transactions : List Transaction
  holdings : List Holding
  accessionNo : String
  periodOfReport : String
  filedAt : String
  link : Option String
  deriving Repr, DecidableEq

/-- The normalized trade record built by `extract_insider_trades_info_single`
(`results.append({...})`).  The three return fields are emitted as constant
nulls by the extractor and are omitted; `sector` / `market_cap` come from an
external static configuration (`constants.py`) and are likewise outside the
claims, so they are omitted. -/
structure NormalizedTrade where
  filling : String
  ticker : String
  cik : String
  transaction_type : String
  ceo_name : String
  company_name : String
  total_shares : ℚ
  share_price : ℚ
  disclosed_date : String
  total_amount_spent : ℚ
  total_shares_after_transaction : ℚ
  link : Option String
  change_in_shares_percentage : ℚ
  deriving Repr, DecidableEq

/-- The Python idiom `if key not in d: d[key] = []` followed by
`d[key].append(a)`, on an insertion-ordered dictionary represented as an
association list from keys to lists. -/
def addKeyed {κ α : Type} [DecidableEq κ]
    (m : List (κ × List α)) (k : κ) (a : α) : List (κ × List α) :=
  match m with
  | [] => [(k, [a])]
  | (k', xs) :: rest =>
      if k' = k then (k', xs ++ [a]) :: rest
      else (k', xs) :: addKeyed rest k a

/-- Lookup in the association-list dictionary (first matching key; `[]` when
absent).  Proof-side accessor, used to state properties of `addKeyed`. -/
def findKeyed {κ α : Type} [DecidableEq κ]
    (m : List (κ × List α)) (k : κ) : List α :=
  match m with
  | [] => []
  | (k', xs) :: rest => if k' = k then xs else findKeyed rest k

/-- The loop of `group_transaction_by_coding`, with the dictionary built so
far as accumulator (left-to-right iteration order, as in Python). -/
def groupByCodingLoop :
    List (String × List Transaction) → List Transaction →
    Except Unit (List (String × List Transaction))
  | m, [] => Except.ok m
  | m, t :: ts => do
      let c ← getItem t.coding_code
      groupByCodingLoop (addKeyed m c t) ts

/-- `group_transaction_by_coding(transactions)` from `utils.py`: a loop over
the transactions reading `transaction["coding"]["code"]` (required — raises on
a missing coding) and appending the transaction to the per-code bucket of an
insertion-ordered dictionary. -/
def group_transaction_by_coding
    (ts : List Transaction) : Except Unit (List (String × List Transaction)) :=
  groupByCodingLoop [] ts

/-- `get_all_codings(transactions)` from `utils.py`: the list comprehension
`[transaction["coding"]["code"] for transaction in transactions]`. -/
def get_all_codings : List Transaction → Except Unit (List String)
  | [] => Except.ok []
  | t :: ts => do
      let c ← getItem t.coding_code
      let cs ← get_all_codings ts
      pure (c :: cs)

/-- `extract_last_item(group)` from `utils.py`:
`group[-1].get("sharesOwnedFollowingTransaction", 0) if group else 0`. -/
def extract_last_item (group : List PostTransactionAmounts) : ℚ :=
  match group.getLast? with
  | some p => p.sharesOwnedFollowingTransaction.getD 0
  | none => 0

/-- The mutable state of the per-group transaction loop in
`extract_insider_trades_info_single`: the two function-scoped accumulators
`total_shares` and `total_amount_spent` (NOT reset between groups in the
source) and the per-group container
`grouped_transactions = {"D": [], "indirect": {}}`. -/
structure GroupAcc where
  total_shares : ℚ
  total_amount_spent : ℚ
  directs : List PostTransactionAmounts
  indirect : List (Option String × List PostTransactionAmounts)
  deriving Repr, DecidableEq

/-- One iteration of the `for transaction in transactions` loop inside a
qualifying coding group (`utils.py` lines 161-181).  Required accesses:
`amounts`, `amounts["shares"]`, `ownershipNature`,
`ownershipNature["directOrIndirectOwnership"]`, `postTransactionAmounts`;
defaulted: `amounts.get("pricePerShare", 0)`,
`ownershipNature.get("natureOfOwnership")`. -/
def processTransaction (acc : GroupAcc) (t : Transaction) :
    Except Unit GroupAcc := do
  let am ← getItem t.amounts
  let sh ← getItem am.shares
  let total_shares := acc.total_shares + sh
  let total_amount_spent := acc.total_amount_spent + sh * am.pricePerShare.getD 0
  let own ← getItem t.ownershipNature
  let ot ← getItem own.directOrIndirectOwnership
  let pta ← getItem t.postTransactionAmounts
  if ot = "I" then
    pure { total_shares := total_shares
           total_amount_spent := total_amount_spent
           directs := acc.directs
           indirect := addKeyed acc.indirect own.natureOfOwnership pta }
  else
    pure { total_shares := total_shares
           total_amount_spent := total_amount_spent
           directs := acc.directs ++ [pta]
           indirect := acc.indirect }

/-- The transaction loop of a qualifying group, as explicit recursion. -/
def groupTransactions : GroupAcc → List Transaction → Except Unit GroupAcc
  | acc, [] => Except.ok acc
  | acc, t :: ts => do
      let acc2 ← processTransaction acc t
      groupTransactions acc2 ts

/-- The holdings pass (`utils.py` lines 195-199): add
`x["postTransactionAmounts"]["sharesOwnedFollowingTransaction"]` for every
holding carrying both keys. -/
def holdingsSum (hs : List Holding) : ℚ :=
  match hs with
  | [] => 0
  | h :: rest =>
      (match h.postTransactionAmounts with
       | some p =>
           (match p.sharesOwnedFollowingTransaction with
            | some q => q
            | none => 0)
       | none => 0) + holdingsSum rest

/-- `insider_trade["nonDerivativeTable"]["transactions"][0]["amounts"]
.get("pricePerShare", 0)` (`utils.py` lines 192-193): `[0]` raises on an
empty list, `["amounts"]` raises when absent, the price itself defaults to 0. -/
def first_share_price (doc : FilingDocument) : Except Unit ℚ :=
  match doc.transactions with
  | [] => Except.error ()
  | t :: _ => do
      let am ← getItem t.amounts
      pure (am.pricePerShare.getD 0)

/-- Python 3 `round` to an integer: round half to even (banker's rounding). -/
def pyRoundInt (x : ℚ) : ℤ :=
  let f : ℤ := Int.floor x
  let r : ℚ := x - f
  if r < 1 / 2 then f
  else if 1 / 2 < r then f + 1
  else if 2 ∣ f then f else f + 1

/-- Python `round(x, 4)`: round to 4 decimal places, half to even. -/
def round4 (x : ℚ) : ℚ :=
  (pyRoundInt (x * 10000) : ℚ) / 10000

/-- The body of one qualifying-group iteration of
`extract_insider_trades_info_single` (`utils.py` lines 158-227), taking the
incoming values of the function-scoped accumulators and returning their
outgoing values together with the appended record. -/
def processGroup (doc : FilingDocument) (code : String) (ts : List Transaction)
    (total_shares total_amount_spent : ℚ) :
    Except Unit (ℚ × ℚ × NormalizedTrade) := do
  let acc ← groupTransactions
    { total_shares := total_shares
      total_amount_spent := total_amount_spent
      directs := []
      indirect := [] } ts
  let last_items_d := extract_last_item acc.directs
  let last_items_indirect := acc.indirect.map (fun kv => extract_last_item kv.2)
  let total0 := (last_items_d :: last_items_indirect).sum
  let share_price ← first_share_price doc
  let total_shares_after_purchase := total0 + holdingsSum doc.holdings
  let change_in_shares_percentage :=
    if total_shares_after_purchase ≠ 0 then
      acc.total_shares / total_shares_after_purchase * 100
    else 0
  pure (acc.total_shares, acc.total_amount_spent,
    { filling := doc.id
      ticker := doc.issuer.tradingSymbol
      cik := doc.issuer.cik
      transaction_type := code
      ceo_name := doc.reportingOwnerName
      company_name := doc.issuer.name
      total_shares := acc.total_shares
      share_price := share_price
      disclosed_date := doc.filedAt
      total_amount_spent := acc.total_amount_spent
      total_shares_after_transaction := total_shares_after_purchase
      link := doc.link
      change_in_shares_percentage := round4 change_in_shares_percentage })

/-- The `for code, transactions in group_transaction_by_coding(...).items()`
loop: state is `(total_shares, total_amount_spent, results)`; groups whose
code is not "P" or "S" are skipped, leaving the state unchanged. -/
def groupLoop (doc : FilingDocument) :
    (ℚ × ℚ × List NormalizedTrade) → List (String × List Transaction) →
    Except Unit (ℚ × ℚ × List NormalizedTrade)
  | st, [] => Except.ok st
  | st, (code, ts) :: rest =>
      if code = "P" ∨ code = "S" then do
        let r ← processGroup doc code ts st.1 st.2.1
        groupLoop doc (r.1, r.2.1, st.2.2 ++ [r.2.2]) rest
      else groupLoop doc st rest

/-- `extract_insider_trades_info_single(insider_trade)` from `utils.py`:
group the transaction table by coding code, then run the qualifying-group
loop starting from `total_shares = 0`, `total_amount_spent = 0`,
`results = []`.  Note that in the source the two numeric accumulators are
initialised once, before the group loop, so a second qualifying group starts
from the totals left behind by the first. -/
def extract_insider_trades_info_single (doc : FilingDocument) :
    Except Unit (List NormalizedTrade) := do
  let grouped ← group_transaction_by_coding doc.transactions
  let st ← groupLoop doc (0, 0, []) grouped
  pure st.2.2

/-! ## Well-formedness predicates

`wfCoded t` says the transaction carries a coding code; `wfT t` says it
carries every field the qualifying-group loop reads with a raising access.
Neither constrains the defaulted fields (`pricePerShare`,
`natureOfOwnership`, `sharesOwnedFollowingTransaction`). -/

def wfCoded (t : Transaction) : Prop :=
  t.coding_code.isSome = true

def wfT (t : Transaction) : Prop :=
  (t.amounts.bind Amounts.shares).isSome = true ∧
  (t.ownershipNature.bind OwnershipNature.directOrIndirectOwnership).isSome = true ∧
  t.postTransactionAmounts.isSome = true

def wfDoc (doc : FilingDocument) : Prop :=
  ∀ t ∈ doc.transactions, wfCoded t ∧ wfT t

instance (t : Transaction) : Decidable (wfCoded t) := by
  unfold wfCoded; infer_instance

instance (t : Transaction) : Decidable (wfT t) := by
  unfold wfT; infer_instance

instance (doc : FilingDocument) : Decidable (wfDoc doc) := by
  unfold wfDoc; infer_instance

/-! ## Declarative accessors (proof-side views of a transaction) -/

/-- The ownership marker of a transaction, when present. -/
def ownershipOf (t : Transaction) : Option String :=
  t.ownershipNature.bind OwnershipNature.directOrIndirectOwnership

/-- The nature-of-ownership grouping key of a transaction (Python `None`
when absent). -/
def natureOf (t : Transaction) : Option String :=
  t.ownershipNature.bind OwnershipNature.natureOfOwnership

/-- The post-transaction snapshot of a transaction (empty when absent). -/
def ptaOf (t : Transaction) : PostTransactionAmounts :=
  t.postTransactionAmounts.getD { sharesOwnedFollowingTransaction := none }

/-- `sharesOwnedFollowingTransaction` of a transaction, default 0. -/
def postSharesOf (t : Transaction) : ℚ :=
  (ptaOf t).sharesOwnedFollowingTransaction.getD 0

/-- `amounts.shares` of a transaction, default 0 (the default is only a
proof-side convenience: the source raises when the field is absent, and the
lemmas using this view assume it present). -/
def sharesOf (t : Transaction) : ℚ :=
  ((t.amounts.getD { shares := none, pricePerShare := none }).shares).getD 0

/-- `amounts.pricePerShare` of a transaction, default 0 (as in the source). -/
def priceOf (t : Transaction) : ℚ :=
  ((t.amounts.getD { shares := none, pricePerShare := none }).pricePerShare).getD 0

/-- Membership test used by the direct/indirect partition. -/
def isIndirect (t : Transaction) : Bool :=
  ownershipOf t == some "I"

/-! ## Proof-side definitions used by the verification -/

/-- `coding.code` with a proof-side default (the lemmas below always assume
the coding present, matching the raising access of the source). -/
def codeD (t : Transaction) : String := t.coding_code.getD ""

/-- Pure view of `groupByCodingLoop` on transaction lists whose members all
carry a coding. -/
def pureGroup (m : List (String × List Transaction)) :
    List Transaction → List (String × List Transaction)
  | [] => m
  | t :: ts => pureGroup (addKeyed m (codeD t) t) ts

/-- The direct-partition snapshots of a group, in filing order: every
transaction whose ownership marker is anything other than "I". -/
def directsList (g : List Transaction) : List PostTransactionAmounts :=
  (g.filter (fun t => !(isIndirect t))).map ptaOf

/-- Pure view of the indirect-partition dictionary built by the group loop. -/
def indFold :
    List (Option String × List PostTransactionAmounts) → List Transaction →
    List (Option String × List PostTransactionAmounts)
  | m, [] => m
  | m, t :: ts =>
      if isIndirect t then indFold (addKeyed m (natureOf t) (ptaOf t)) ts
      else indFold m ts

/-- Sum of `amounts.shares` over a group. -/
def sumShares (g : List Transaction) : ℚ := (g.map sharesOf).sum

/-- Sum of `amounts.shares * amounts.pricePerShare` (missing price 0). -/
def sumSpend (g : List Transaction) : ℚ :=
  (g.map (fun t => sharesOf t * priceOf t)).sum

/-- First-occurrence deduplication (the key order of a Python dict). -/
def firstDedup {κ : Type} [DecidableEq κ] : List κ → List κ
  | [] => []
  | k :: ks => k :: (firstDedup ks).filter (fun x => !(x == k))

/-- The direct contribution of a group: the post-transaction share count of
the last transaction of the direct partition (every transaction whose
ownership marker is not "I"), 0 when the partition is empty. -/
def directContribution (g : List Transaction) : ℚ :=
  match (g.filter (fun t => !(isIndirect t))).getLast? with
  | some t => postSharesOf t
  | none => 0

/-- The distinct `natureOfOwnership` keys among a group's indirect
transactions, in order of first appearance. -/
def indirectNatures (g : List Transaction) : List (Option String) :=
  firstDedup ((g.filter isIndirect).map natureOf)

/-- The post-transaction share count of the last indirect transaction of the
group with a given nature, 0 when there is none. -/
def lastOfNature (g : List Transaction) (k : Option String) : ℚ :=
  match (g.filter (fun t => isIndirect t && natureOf t == k)).getLast? with
  | some t => postSharesOf t
  | none => 0

/-- Sum over the distinct natures of the last-of-nature contribution. -/
def indirectContribution (g : List Transaction) : ℚ :=
  ((indirectNatures g).map (lastOfNature g)).sum

/-- The record the group body emits, in closed form (proof-side view). -/
def groupRecord (doc : FilingDocument) (code : String) (g : List Transaction)
    (ts0 tas0 p : ℚ) : NormalizedTrade :=
  { filling := doc.id
    ticker := doc.issuer.tradingSymbol
    cik := doc.issuer.cik
    transaction_type := code
    ceo_name := doc.reportingOwnerName
    company_name := doc.issuer.name
    total_shares := ts0 + sumShares g
    share_price := p
    disclosed_date := doc.filedAt
    total_amount_spent := tas0 + sumSpend g
    total_shares_after_transaction :=
      directContribution g + indirectContribution g + holdingsSum doc.holdings
    link := doc.link
    change_in_shares_percentage :=
      round4 (if directContribution g + indirectContribution g +
          holdingsSum doc.holdings ≠ 0 then
        (ts0 + sumShares g) /
          (directContribution g + indirectContribution g +
            holdingsSum doc.holdings) * 100
      else 0) }

/-! ## The claim C4 reading of the direct contribution -/

/-- Modelled from the spec's words for claim C4: the direct contribution
taken from the last transaction whose ownership marker is literally "D"
(to be compared with `directContribution`, the source's behaviour, which
sends every non-"I" marker to the direct partition). -/
def directContributionD (g : List Transaction) : ℚ :=
  match (g.filter (fun t => ownershipOf t == some "D")).getLast? with
  | some t => postSharesOf t
  | none => 0

/-- Modelled from the spec's words for claim C4: `totalSharesAfterTransaction`
as the claim states it — last "D" transaction, plus per-nature last indirect
transactions, plus the holdings carrying a share count. -/
def claimedTotalAfter (doc : FilingDocument) (code : String) : ℚ :=
  directContributionD (doc.transactions.filter (fun t => codeD t == code)) +
  indirectContribution (doc.transactions.filter (fun t => codeD t == code)) +
  holdingsSum doc.holdings

/-! ## Concrete fixture documents -/

/-- A fully-populated transaction (all optional keys present). -/
def mkTransaction (code : String) (sh pr : ℚ) (own : String)
    (nat : Option String) (post : ℚ) : Transaction :=
  { coding_code := some code
    amounts := some { shares := some sh, pricePerShare := some pr }
    ownershipNature :=
      some { directOrIndirectOwnership := some own, natureOfOwnership := nat }
    postTransactionAmounts :=
      some { sharesOwnedFollowingTransaction := some post } }

/-- A document around a given transaction table and holdings table. -/
def mkDocument (ts : List Transaction) (hs : List Holding) : FilingDocument :=
  { id := "doc-1"
    issuer := { tradingSymbol := "TST", name := "Test Co", cik := "777" }
    reportingOwnerName := "Jane Roe"
    transactions := ts
    holdings := hs
    accessionNo := "0001-23-000001"
    periodOfReport := "2024-01-01"
    filedAt := "2024-01-02"
    link := none }

/-- One "P" purchase (10 shares at 100, leaving 1000) followed by one "S"
sale (5 shares at 100, leaving 995). -/
def docPS : FilingDocument :=
  mkDocument
    [mkTransaction "P" 10 100 "D" none 1000,
     mkTransaction "S" 5 100 "D" none 995] []

/-- The extractor's output on `docPS`. -/
def recsPS : List NormalizedTrade :=
  [{ filling := "doc-1", ticker := "TST", cik := "777"
     transaction_type := "P", ceo_name := "Jane Roe", company_name := "Test Co"
     total_shares := 10, share_price := 100, disclosed_date := "2024-01-02"
     total_amount_spent := 1000, total_shares_after_transaction := 1000
     link := none, change_in_shares_percentage := 1 },
   { filling := "doc-1", ticker := "TST", cik := "777"
     transaction_type := "S", ceo_name := "Jane Roe", company_name := "Test Co"
     total_shares := 15, share_price := 100, disclosed_date := "2024-01-02"
     total_amount_spent := 1500, total_shares_after_transaction := 995
     link := none, change_in_shares_percentage := 603 / 400 }]

/-- A "P" transaction whose `amounts` dict is present but lacks the `shares`
key: the source raises a `KeyError` on `transaction["amounts"]["shares"]`. -/
def docMissingShares : FilingDocument :=
  mkDocument
    [{ coding_code := some "P"
       amounts := some { shares := none, pricePerShare := some 1 }
       ownershipNature := some
         { directOrIndirectOwnership := some "D", natureOfOwnership := none }
       postTransactionAmounts :=
         some { sharesOwnedFollowingTransaction := some 1 } }] []

/-- A "P" transaction missing every *optional* key (`pricePerShare`,
`natureOfOwnership`, `sharesOwnedFollowingTransaction`) but carrying every
required one. -/
def docOptMissing : FilingDocument :=
  mkDocument
    [{ coding_code := some "P"
       amounts := some { shares := some 4, pricePerShare := none }
       ownershipNature := some
         { directOrIndirectOwnership := some "I", natureOfOwnership := none }
       postTransactionAmounts :=
         some { sharesOwnedFollowingTransaction := none } }] []

/-- A single "P" transaction with the unexpected ownership marker "X"
(neither "D" nor "I"), leaving 100 shares. -/
def docOwnX : FilingDocument :=
  mkDocument [mkTransaction "P" 10 100 "X" none 100] []

/-- A transaction with the empty string as ownership marker. -/
def txOwnEmpty : Transaction := mkTransaction "P" 10 100 "" none 100

/-- A document whose single "P" transaction has the empty-string marker. -/
def docOwnEmpty : FilingDocument := mkDocument [txOwnEmpty] []

/-- A mixed direct/indirect "P" document: two direct transactions (last
leaves 500), two "By Trust" transactions (last leaves 70), one "By Spouse"
transaction (leaves 30), and one holding carrying 7 shares. -/
def docW4 : FilingDocument :=
  mkDocument
    [mkTransaction "P" 1 10 "I" (some "By Trust") 50,
     mkTransaction "P" 2 10 "D" none 200,
     mkTransaction "P" 3 10 "I" (some "By Trust") 70,
     mkTransaction "P" 4 10 "I" (some "By Spouse") 30,
     mkTransaction "P" 5 10 "D" none 500]
    [{ postTransactionAmounts :=
         some { sharesOwnedFollowingTransaction := some 7 } }]

/-- The extractor's output on `docW4`: 500 + 70 + 30 + 7 = 607 shares after. -/
def recsW4 : List NormalizedTrade :=
  [{ filling := "doc-1", ticker := "TST", cik := "777"
     transaction_type := "P", ceo_name := "Jane Roe", company_name := "Test Co"
     total_shares := 15, share_price := 10, disclosed_date := "2024-01-02"
     total_amount_spent := 150, total_shares_after_transaction := 607
     link := none, change_in_shares_percentage := 3089 / 1250 }]

/-- An "S" sale of 10 shares reported as leaving 0 shares: the
division-by-zero guard case. -/
def docZeroTsat : FilingDocument :=
  mkDocument [mkTransaction "S" 10 100 "D" none 0] []

/-- The extractor's output on `docZeroTsat`. -/
def recsZero : List NormalizedTrade :=
  [{ filling := "doc-1", ticker := "TST", cik := "777"
     transaction_type := "S", ceo_name := "Jane Roe", company_name := "Test Co"
     total_shares := 10, share_price := 100, disclosed_date := "2024-01-02"
     total_amount_spent := 1000, total_shares_after_transaction := 0
     link := none, change_in_shares_percentage := 0 }]

/-- A document with one gift ("A") and one exercise ("M") transaction and no
"P" or "S" coding at all. -/
def docNoPS : FilingDocument :=
  mkDocument
    [mkTransaction "A" 3 0 "D" none 300,
     mkTransaction "M" 2 1 "D" none 302] []

/-! ## Stream Connection Manager (stream.py, `main`) -/

/-- `max_retries = 10` in `main`. -/
def maxRetries : ℕ := 10

/-- The fixed reconnect backoff of `main`: `await asyncio.sleep(5)`. -/
def backoffUnits : ℕ := 5

/-- The control state of `main`'s reconnect loop.  `connecting r` is the top
of the `while retry_counter < max_retries` loop about to call
`websockets.connect` with `retry_counter = r`; `connected r` is the
established session (`retry_counter` was just reset; it still holds `r`,
always 0 in reachable states, because the shared `except` branch increments
whatever value is current); `backoff r` is the `await asyncio.sleep(5)` of
the `except` branch after the counter became `r`; `stopped` is the loop exit
("Maximum reconnection attempts reached"). -/
inductive CMState where
  | connecting (retry : ℕ)
  | connected (retry : ℕ)
  | backoff (retry : ℕ)
  | stopped
  deriving Repr, DecidableEq

/-- Environment inputs: the connect attempt succeeds or raises; the
established session eventually raises (receive failure or connection drop);
the backoff sleep elapses. -/
inductive CMInput where
  | connOk
  | connFail
  | sessionDrop
  | wake
  deriving Repr, DecidableEq

/-- Observable actions: a connect attempt issued; a sleep of `n` units. -/
inductive CMAction where
  | attempt
  | sleep (units : ℕ)
  deriving Repr, DecidableEq

/-- One transition of the reconnect loop of `main` in `stream.py`:
- `connecting r` + success: `retry_counter = 0`, enter the session
  (one connect attempt issued);
- `connecting r` + failure: the `except` branch runs,
  `retry_counter = r + 1`, sleep 5; the loop guard then either stops
  (counter at `max_retries`) or reconnects;
- `connected r` + session drop: the same `except` branch, without a new
  attempt having been issued;
- `backoff r` + wake: back to the loop guard, hence `connecting r`;
- `stopped` absorbs every input and issues nothing. -/
def cmStep : CMState → CMInput → CMState × List CMAction
  | CMState.connecting _, CMInput.connOk =>
      (CMState.connected 0, [CMAction.attempt])
  | CMState.connecting r, CMInput.connFail =>
      if r + 1 ≥ maxRetries then
        (CMState.stopped, [CMAction.attempt, CMAction.sleep backoffUnits])
      else
        (CMState.backoff (r + 1), [CMAction.attempt, CMAction.sleep backoffUnits])
  | CMState.connected r, CMInput.sessionDrop =>
      if r + 1 ≥ maxRetries then
        (CMState.stopped, [CMAction.sleep backoffUnits])
      else
        (CMState.backoff (r + 1), [CMAction.sleep backoffUnits])
  | CMState.backoff r, CMInput.wake => (CMState.connecting r, [])
  | CMState.stopped, _ => (CMState.stopped, [])
  | s, _ => (s, [])

/-- Run the reconnect loop over a finite input trace, collecting actions. -/
def cmRun : CMState → List CMInput → CMState × List CMAction
  | s, [] => (s, [])
  | s, i :: is =>
      let step := cmStep s i
      let rest := cmRun step.1 is
      (rest.1, step.2 ++ rest.2)

/-- `n` consecutive failed connect attempts, each followed by its backoff. -/
def failTrace : ℕ → List CMInput
  | 0 => []
  | n + 1 => CMInput.connFail :: CMInput.wake :: failTrace n

/-! ## Receive-loop timing (stream.py `main`, `on_filings`,
`fetch_insider_trades`) -/

/-- A raw stream event, as read by `on_filings`. -/
structure FilingEvent where
  formType : String
  ticker : String
  companyName : String
  accessionNo : String
  linkToFilingDetails : String
  deriving Repr, DecidableEq

/-- The candidate test of `on_filings`:
`form_type in ["4", "4/A"] and accessionNo` (a Python truthiness test —
the empty string is falsy). -/
def is_candidate (f : FilingEvent) : Bool :=
  (f.formType == "4" || f.formType == "4/A") && !(f.accessionNo == "")

/-- The settle delay of `fetch_insider_trades`: `await asyncio.sleep(15)`. -/
def settleDelay : ℕ := 15

/-- Time consumed inline by `await on_filings(f)`: for every candidate,
`on_filings` awaits `fetch_insider_trades`, whose first statement is the
15-unit settle sleep; non-candidates return at once.  Every other stage is
modelled as instantaneous, so this is a lower bound on the true cost. -/
def eventCost (f : FilingEvent) : ℕ :=
  if is_candidate f then settleDelay else 0

/-- The receive loop (`while True: message = await websocket.recv(); ...
for f in filings: await on_filings(f)`) processes a decoded batch by
awaiting each event in order before calling `recv` again. -/
def messageCost (msg : List FilingEvent) : ℕ := (msg.map eventCost).sum

/-- The time at which the loop issues its k-th `websocket.recv()` (counting
from 0, network latency 0): message k is received only after every event of
messages 0..k-1 has been processed inline. -/
def recvTime (msgs : List (List FilingEvent)) (k : ℕ) : ℕ :=
  ((msgs.take k).map messageCost).sum

/-- A form-4 candidate event on the stream. -/
def evTSLA : FilingEvent :=
  { formType := "4", ticker := "TSLA", companyName := "Tesla"
    accessionNo := "acc-1", linkToFilingDetails := "l1" }

/-- A second candidate event, arriving in the next message. -/
def evAAPL : FilingEvent :=
  { formType := "4", ticker := "AAPL", companyName := "Apple"
    accessionNo := "acc-2", linkToFilingDetails := "l2" }

/-- Two successive one-event messages on the stream. -/
def exMsgs : List (List FilingEvent) := [[evTSLA], [evAAPL]]


/-! ## Generic lemmas about the keyed-dictionary operations -/

theorem bind_ok_iff {α β : Type} (x : Except Unit α) (f : α → Except Unit β)
    (c : β) : (x >>= f) = Except.ok c ↔ ∃ b, x = Except.ok b ∧ f b = Except.ok c := by
  cases x <;> simp [Bind.bind, Except.bind]

theorem pure_eq_ok {α : Type} (a : α) : (pure a : Except Unit α) = Except.ok a := rfl

theorem mem_keys_of_mem {κ α : Type}
    (m : List (κ × List α)) (k : κ) (xs : List α) (hmem : (k, xs) ∈ m) :
    k ∈ m.map Prod.fst := List.mem_map.mpr ⟨(k, xs), hmem, rfl⟩

theorem keys_addKeyed {κ α : Type} [DecidableEq κ]
    (m : List (κ × List α)) (k : κ) (a : α) :
    (addKeyed m k a).map Prod.fst =
      if k ∈ m.map Prod.fst then m.map Prod.fst else m.map Prod.fst ++ [k] := by
  induction m with
  | nil => simp [addKeyed]
  | cons e rest ih =>
      obtain ⟨k', xs⟩ := e
      by_cases h : k' = k
      · subst h
        simp [addKeyed]
      · have hne : k ≠ k' := Ne.symm h
        by_cases hk : k ∈ rest.map Prod.fst
        · have hmem : k ∈ (List.map Prod.fst ((k', xs) :: rest)) := by simp [hk]
          simp [addKeyed, h, ih, hk, hmem]
        · have hmem : k ∉ (List.map Prod.fst ((k', xs) :: rest)) := by
            simp [hk, hne]
          simp [addKeyed, h, ih, hk, hmem, hne]

theorem nodup_keys_addKeyed {κ α : Type} [DecidableEq κ]
    (m : List (κ × List α)) (k : κ) (a : α)
    (h : (m.map Prod.fst).Nodup) : ((addKeyed m k a).map Prod.fst).Nodup := by
  rw [keys_addKeyed]
  by_cases hk : k ∈ m.map Prod.fst
  · simpa [hk]
  · simpa [hk, List.nodup_append] using h

theorem findKeyed_addKeyed {κ α : Type} [DecidableEq κ]
    (m : List (κ × List α)) (k : κ) (a : α) (k' : κ) :
    findKeyed (addKeyed m k a) k' =
      if k' = k then findKeyed m k' ++ [a] else findKeyed m k' := by
  induction m with
  | nil =>
      by_cases h : k' = k
      · simp [addKeyed, findKeyed, h]
      · simp [addKeyed, findKeyed, h, Ne.symm h]
  | cons e rest ih =>
      obtain ⟨k0, xs⟩ := e
      by_cases h0 : k0 = k
      · subst h0
        by_cases h : k' = k0
        · simp [addKeyed, findKeyed, h]
        · simp [addKeyed, findKeyed, h, Ne.symm h]
      · by_cases h : k0 = k'
        · subst h
          simp [addKeyed, findKeyed, h0]
        · simp [addKeyed, findKeyed, h0, h, ih]

theorem findKeyed_of_mem {κ α : Type} [DecidableEq κ]
    (m : List (κ × List α)) (k : κ) (xs : List α)
    (hnd : (m.map Prod.fst).Nodup) (hmem : (k, xs) ∈ m) :
    findKeyed m k = xs := by
  induction m with
  | nil => cases hmem
  | cons e rest ih =>
      obtain ⟨k0, ys⟩ := e
      rcases List.mem_cons.mp hmem with h | h
      · cases h
        simp [findKeyed]
      · have hk0 : k0 ≠ k := by
          rintro rfl
          exact (List.nodup_cons.mp hnd).1 (mem_keys_of_mem rest k0 xs h)
        have hstep : findKeyed ((k0, ys) :: rest) k = findKeyed rest k := by
          simp [findKeyed, hk0]
        rw [hstep]
        exact ih (List.nodup_cons.mp hnd).2 h

/-! ## Pure views of the extraction folds -/


theorem groupByCodingLoop_ok (ts : List Transaction)
    (h : ∀ t ∈ ts, wfCoded t) (m : List (String × List Transaction)) :
    groupByCodingLoop m ts = Except.ok (pureGroup m ts) := by
  induction ts generalizing m with
  | nil => rfl
  | cons t rest ih =>
      obtain ⟨c, hc⟩ := Option.isSome_iff_exists.mp (h t (List.mem_cons_self t rest))
      have hcode : codeD t = c := by simp [codeD, hc]
      simp only [groupByCodingLoop, hc, getItem, pureGroup, hcode]
      simpa [Bind.bind, Except.bind] using
        ih (fun x hx => h x (List.mem_cons_of_mem t hx)) (addKeyed m c t)

theorem mem_keys_addKeyed {κ α : Type} [DecidableEq κ]
    (m : List (κ × List α)) (k : κ) (a : α) (c : κ) :
    c ∈ (addKeyed m k a).map Prod.fst ↔ c ∈ m.map Prod.fst ∨ c = k := by
  rw [keys_addKeyed]
  by_cases hk : k ∈ m.map Prod.fst
  · simp only [if_pos hk]
    exact ⟨Or.inl, fun h => h.elim id (fun hh => hh ▸ hk)⟩
  · simp [hk]

theorem findKeyed_pureGroup (ts : List Transaction)
    (m : List (String × List Transaction)) (c : String) :
    findKeyed (pureGroup m ts) c =
      findKeyed m c ++ ts.filter (fun t => codeD t == c) := by
  induction ts generalizing m with
  | nil => simp [pureGroup]
  | cons t rest ih =>
      by_cases h : codeD t = c
      · simp [pureGroup, ih, findKeyed_addKeyed, h, List.filter_cons]
      · simp [pureGroup, ih, findKeyed_addKeyed, h, Ne.symm h, List.filter_cons]

theorem mem_keys_pureGroup (ts : List Transaction)
    (m : List (String × List Transaction)) (c : String) :
    c ∈ (pureGroup m ts).map Prod.fst ↔
      c ∈ m.map Prod.fst ∨ c ∈ ts.map codeD := by
  induction ts generalizing m with
  | nil => simp [pureGroup]
  | cons t rest ih =>
      rw [pureGroup, ih, mem_keys_addKeyed]
      simp only [List.map_cons, List.mem_cons]
      tauto

theorem nodup_keys_pureGroup (ts : List Transaction)
    (m : List (String × List Transaction))
    (h : (m.map Prod.fst).Nodup) : ((pureGroup m ts).map Prod.fst).Nodup := by
  induction ts generalizing m with
  | nil => exact h
  | cons t rest ih => exact ih _ (nodup_keys_addKeyed _ _ _ h)


theorem wfT_destruct (t : Transaction) (h : wfT t) :
    ∃ am s o ot pta, t.amounts = some am ∧ am.shares = some s ∧
      t.ownershipNature = some o ∧ o.directOrIndirectOwnership = some ot ∧
      t.postTransactionAmounts = some pta := by
  obtain ⟨h1, h2, h3⟩ := h
  cases ham : t.amounts with
  | none => rw [ham] at h1; simp at h1
  | some am =>
      rw [ham] at h1
      obtain ⟨s, hs⟩ := Option.isSome_iff_exists.mp h1
      cases hown : t.ownershipNature with
      | none => rw [hown] at h2; simp at h2
      | some o =>
          rw [hown] at h2
          obtain ⟨ot, hot⟩ := Option.isSome_iff_exists.mp h2
          obtain ⟨pta, hpta⟩ := Option.isSome_iff_exists.mp h3
          exact ⟨am, s, o, ot, pta, rfl, hs, rfl, hot, hpta⟩

theorem processTransaction_ok (acc : GroupAcc) (t : Transaction) (h : wfT t) :
    processTransaction acc t = Except.ok
      { total_shares := acc.total_shares + sharesOf t
        total_amount_spent := acc.total_amount_spent + sharesOf t * priceOf t
        directs := if isIndirect t then acc.directs else acc.directs ++ [ptaOf t]
        indirect :=
          if isIndirect t then addKeyed acc.indirect (natureOf t) (ptaOf t)
          else acc.indirect } := by
  obtain ⟨am, s, o, ot, pta, ham, hs, hown, hot, hpta⟩ := wfT_destruct t h
  have hind : isIndirect t = (ot == "I") := by
    simp [isIndirect, ownershipOf, ham, hown, hot]
  by_cases hI : ot = "I"
  · simp [processTransaction, getItem, ham, hs, hown, hot, hpta, Bind.bind,
      Except.bind, Pure.pure, Except.pure, hI, hind, sharesOf, priceOf,
      ptaOf, natureOf]
  · simp [processTransaction, getItem, ham, hs, hown, hot, hpta, Bind.bind,
      Except.bind, Pure.pure, Except.pure, hI, hind, sharesOf, priceOf,
      ptaOf, natureOf]

theorem groupTransactions_ok (g : List Transaction) (hg : ∀ t ∈ g, wfT t)
    (acc : GroupAcc) :
    groupTransactions acc g = Except.ok
      { total_shares := acc.total_shares + sumShares g
        total_amount_spent := acc.total_amount_spent + sumSpend g
        directs := acc.directs ++ directsList g
        indirect := indFold acc.indirect g } := by
  induction g generalizing acc with
  | nil => simp [groupTransactions, sumShares, sumSpend, directsList, indFold]
  | cons t rest ih =>
      have hstep := processTransaction_ok acc t (hg t (List.mem_cons_self t rest))
      have ihrest := ih (fun x hx => hg x (List.mem_cons_of_mem t hx))
      by_cases hI : isIndirect t
      · simp [groupTransactions, hstep, Bind.bind, Except.bind, ihrest, hI,
          sumShares, sumSpend, directsList, indFold, List.filter_cons, add_assoc]
      · simp [groupTransactions, hstep, Bind.bind, Except.bind, ihrest, hI,
          sumShares, sumSpend, directsList, indFold, List.filter_cons, add_assoc]

/-! ## Declarative description of a group's aggregates -/


theorem mem_firstDedup {κ : Type} [DecidableEq κ] (l : List κ) (x : κ) :
    x ∈ firstDedup l ↔ x ∈ l := by
  induction l with
  | nil => simp [firstDedup]
  | cons k ks ih =>
      by_cases h : x = k
      · simp [firstDedup, h]
      · simp [firstDedup, h, List.mem_filter, ih]

theorem nodup_firstDedup {κ : Type} [DecidableEq κ] (l : List κ) :
    (firstDedup l).Nodup := by
  induction l with
  | nil => simp [firstDedup]
  | cons k ks ih =>
      rw [firstDedup, List.nodup_cons]
      refine ⟨fun hmem => ?_, ih.filter _⟩
      have := (List.mem_filter.mp hmem).2
      simp at this


theorem extract_last_item_map_ptaOf (l : List Transaction) :
    extract_last_item (l.map ptaOf) =
      (match l.getLast? with
       | some t => postSharesOf t
       | none => 0) := by
  rw [extract_last_item, List.getLast?_map]
  cases l.getLast? with
  | none => rfl
  | some t => rfl

theorem extract_last_item_directsList (g : List Transaction) :
    extract_last_item (directsList g) = directContribution g := by
  rw [directsList, extract_last_item_map_ptaOf]
  rfl

theorem findKeyed_indFold (g : List Transaction)
    (m : List (Option String × List PostTransactionAmounts))
    (k : Option String) :
    findKeyed (indFold m g) k = findKeyed m k ++
      (g.filter (fun t => isIndirect t && natureOf t == k)).map ptaOf := by
  induction g generalizing m with
  | nil => simp [indFold]
  | cons t rest ih =>
      by_cases hI : isIndirect t
      · by_cases hk : natureOf t = k
        · simp [indFold, hI, ih, findKeyed_addKeyed, hk, List.filter_cons]
        · simp [indFold, hI, ih, findKeyed_addKeyed, hk, Ne.symm hk,
            List.filter_cons]
      · simp [indFold, hI, ih, List.filter_cons]

theorem mem_keys_indFold (g : List Transaction)
    (m : List (Option String × List PostTransactionAmounts))
    (k : Option String) :
    k ∈ (indFold m g).map Prod.fst ↔
      k ∈ m.map Prod.fst ∨ k ∈ (g.filter isIndirect).map natureOf := by
  induction g generalizing m with
  | nil => simp [indFold]
  | cons t rest ih =>
      by_cases hI : isIndirect t
      · rw [indFold, if_pos hI, ih, mem_keys_addKeyed]
        simp only [List.filter_cons, hI, if_pos, List.map_cons, List.mem_cons]
        tauto
      · rw [indFold, if_neg hI, ih]
        simp [List.filter_cons, hI]

theorem nodup_keys_indFold (g : List Transaction)
    (m : List (Option String × List PostTransactionAmounts))
    (h : (m.map Prod.fst).Nodup) : ((indFold m g).map Prod.fst).Nodup := by
  induction g generalizing m with
  | nil => exact h
  | cons t rest ih =>
      rw [indFold]
      by_cases hI : isIndirect t
      · rw [if_pos hI]
        exact ih _ (nodup_keys_addKeyed _ _ _ h)
      · rw [if_neg hI]
        exact ih _ h

theorem assoc_entries_eq {κ α : Type} [DecidableEq κ]
    (M : List (κ × List α)) (hnd : (M.map Prod.fst).Nodup) :
    M = (M.map Prod.fst).map (fun k => (k, findKeyed M k)) := by
  induction M with
  | nil => rfl
  | cons e rest ih =>
      obtain ⟨k0, xs⟩ := e
      have h1 := List.nodup_cons.mp (by simpa only [List.map_cons] using hnd)
      have hhead : findKeyed ((k0, xs) :: rest) k0 = xs := by simp [findKeyed]
      have htail : ∀ k ∈ rest.map Prod.fst,
          (k, findKeyed rest k) = (k, findKeyed ((k0, xs) :: rest) k) := by
        intro k hk
        have hne : k0 ≠ k := fun hh => h1.1 (hh ▸ hk)
        simp [findKeyed, hne]
      calc (k0, xs) :: rest
          = (k0, xs) :: (rest.map Prod.fst).map (fun k => (k, findKeyed rest k)) := by
            rw [← ih h1.2]
        _ = (k0, xs) ::
              (rest.map Prod.fst).map (fun k => (k, findKeyed ((k0, xs) :: rest) k)) := by
            rw [List.map_congr_left htail]
        _ = (((k0, xs) :: rest).map Prod.fst).map
              (fun k => (k, findKeyed ((k0, xs) :: rest) k)) := by
            simp [hhead]

theorem sum_over_entries {κ α : Type} [DecidableEq κ]
    (M : List (κ × List α)) (hnd : (M.map Prod.fst).Nodup)
    (f : List α → ℚ) :
    (M.map (fun e => f e.2)).sum =
      ((M.map Prod.fst).map (fun k => f (findKeyed M k))).sum := by
  conv_lhs => rw [assoc_entries_eq M hnd]
  rw [List.map_map]
  rfl

theorem sum_eq_of_same_membership {κ : Type} [DecidableEq κ]
    (K1 K2 : List κ) (h1 : K1.Nodup) (h2 : K2.Nodup)
    (hmem : ∀ k, k ∈ K1 ↔ k ∈ K2) (f : κ → ℚ) :
    (K1.map f).sum = (K2.map f).sum := by
  have hperm : K1.Perm K2 :=
    List.perm_of_nodup_nodup_toFinset_eq h1 h2 (by ext x; simp [hmem x])
  exact (hperm.map f).sum_eq

theorem sum_indirect_eq (g : List Transaction) :
    ((indFold [] g).map (fun kv => extract_last_item kv.2)).sum =
      indirectContribution g := by
  have hnd : ((indFold [] g).map Prod.fst).Nodup :=
    nodup_keys_indFold g [] (by simp)
  rw [sum_over_entries _ hnd extract_last_item]
  have hpt : ∀ k, extract_last_item (findKeyed (indFold [] g) k) = lastOfNature g k := by
    intro k
    rw [findKeyed_indFold]
    simp only [findKeyed, List.nil_append]
    rw [extract_last_item_map_ptaOf]
    rfl
  rw [List.map_congr_left (fun k _ => hpt k)]
  apply sum_eq_of_same_membership _ _ hnd (nodup_firstDedup _)
  intro k
  rw [mem_keys_indFold]
  simp [indirectNatures, mem_firstDedup]

/-! ## Closed form of the group body and the group loop -/


theorem processGroup_ok (doc : FilingDocument) (code : String)
    (g : List Transaction) (ts0 tas0 p : ℚ)
    (hg : ∀ t ∈ g, wfT t) (hfp : first_share_price doc = Except.ok p) :
    processGroup doc code g ts0 tas0 =
      Except.ok (ts0 + sumShares g, tas0 + sumSpend g,
        groupRecord doc code g ts0 tas0 p) := by
  simp only [processGroup, groupTransactions_ok g hg, Bind.bind, Except.bind,
    hfp, List.nil_append, List.sum_cons, extract_last_item_directsList,
    sum_indirect_eq, groupRecord, Pure.pure, Except.pure, add_assoc]

theorem groupLoop_mono (doc : FilingDocument)
    (G : List (String × List Transaction))
    (st st' : ℚ × ℚ × List NormalizedTrade)
    (h : groupLoop doc st G = Except.ok st') :
    ∀ r ∈ st.2.2, r ∈ st'.2.2 := by
  induction G generalizing st with
  | nil =>
      rw [groupLoop] at h
      injection h with h1
      subst h1
      exact fun r hr => hr
  | cons cg rest ih =>
      obtain ⟨c0, ts0⟩ := cg
      rw [groupLoop] at h
      by_cases hq : c0 = "P" ∨ c0 = "S"
      · rw [if_pos hq, bind_ok_iff] at h
        obtain ⟨b, _, hrest⟩ := h
        intro r hr
        exact ih _ hrest r (List.mem_append.mpr (Or.inl hr))
      · rw [if_neg hq] at h
        exact ih _ h

theorem groupLoop_mem_records (doc : FilingDocument)
    (G : List (String × List Transaction))
    (st st' : ℚ × ℚ × List NormalizedTrade)
    (h : groupLoop doc st G = Except.ok st') :
    ∀ r ∈ st'.2.2, r ∈ st.2.2 ∨ ∃ code ts ts0 tas0 a b,
      (code, ts) ∈ G ∧ (code = "P" ∨ code = "S") ∧
      processGroup doc code ts ts0 tas0 = Except.ok (a, b, r) := by
  induction G generalizing st with
  | nil =>
      rw [groupLoop] at h
      injection h with h1
      subst h1
      exact fun r hr => Or.inl hr
  | cons cg rest ih =>
      obtain ⟨c0, ts0⟩ := cg
      rw [groupLoop] at h
      by_cases hq : c0 = "P" ∨ c0 = "S"
      · rw [if_pos hq, bind_ok_iff] at h
        obtain ⟨b, hb, hrest⟩ := h
        intro r hr
        rcases ih _ hrest r hr with hmem | ⟨c', ts', x, y, a', b', hin, hq', hp⟩
        · rcases List.mem_append.mp hmem with h1 | h2
          · exact Or.inl h1
          · right
            refine ⟨c0, ts0, st.1, st.2.1, b.1, b.2.1,
              List.mem_cons_self _ _, hq, ?_⟩
            have hr2 : r = b.2.2 := by simpa using h2
            rw [hr2]
            simpa using hb
        · exact Or.inr ⟨c', ts', x, y, a', b',
            List.mem_cons_of_mem _ hin, hq', hp⟩
      · rw [if_neg hq] at h
        intro r hr
        rcases ih _ h r hr with h1 | ⟨c', ts', x, y, a', b', hin, hq', hp⟩
        · exact Or.inl h1
        · exact Or.inr ⟨c', ts', x, y, a', b',
            List.mem_cons_of_mem _ hin, hq', hp⟩

theorem groupLoop_exists_record (doc : FilingDocument)
    (G : List (String × List Transaction))
    (st st' : ℚ × ℚ × List NormalizedTrade)
    (h : groupLoop doc st G = Except.ok st') (code : String)
    (ts : List Transaction) (hmem : (code, ts) ∈ G)
    (hq : code = "P" ∨ code = "S") :
    ∃ r ∈ st'.2.2, ∃ ts0 tas0 a b,
      processGroup doc code ts ts0 tas0 = Except.ok (a, b, r) := by
  induction G generalizing st with
  | nil => cases hmem
  | cons cg rest ih =>
      obtain ⟨c0, ts0l⟩ := cg
      rw [groupLoop] at h
      rcases List.mem_cons.mp hmem with he | htail
      · injection he with he1 he2
        subst he1
        subst he2
        rw [if_pos hq, bind_ok_iff] at h
        obtain ⟨b, hb, hrest⟩ := h
        refine ⟨b.2.2,
          groupLoop_mono doc rest _ _ hrest b.2.2 (by simp),
          st.1, st.2.1, b.1, b.2.1, ?_⟩
        simpa using hb
      · by_cases hq0 : c0 = "P" ∨ c0 = "S"
        · rw [if_pos hq0, bind_ok_iff] at h
          obtain ⟨b, hb, hrest⟩ := h
          exact ih _ hrest htail
        · rw [if_neg hq0] at h
          exact ih _ h htail

theorem groupLoop_length (doc : FilingDocument)
    (G : List (String × List Transaction))
    (st st' : ℚ × ℚ × List NormalizedTrade)
    (h : groupLoop doc st G = Except.ok st') :
    st'.2.2.length = st.2.2.length +
      (G.filter (fun cg => decide (cg.1 = "P" ∨ cg.1 = "S"))).length := by
  induction G generalizing st with
  | nil =>
      rw [groupLoop] at h
      injection h with h1
      subst h1
      simp
  | cons cg rest ih =>
      obtain ⟨c0, ts0⟩ := cg
      rw [groupLoop] at h
      by_cases hq : c0 = "P" ∨ c0 = "S"
      · rw [if_pos hq, bind_ok_iff] at h
        obtain ⟨b, hb, hrest⟩ := h
        have hl := ih _ hrest
        simp only [List.filter_cons] at hl ⊢
        simp [hq] at hl ⊢
        omega
      · rw [if_neg hq] at h
        have hl := ih _ h
        simp only [List.filter_cons]
        simp [hq, hl]

theorem groupLoop_skip (doc : FilingDocument)
    (G : List (String × List Transaction))
    (h : ∀ cg ∈ G, ¬(cg.1 = "P" ∨ cg.1 = "S"))
    (st : ℚ × ℚ × List NormalizedTrade) :
    groupLoop doc st G = Except.ok st := by
  induction G generalizing st with
  | nil => rfl
  | cons cg rest ih =>
      obtain ⟨c0, ts0⟩ := cg
      rw [groupLoop, if_neg (h _ (List.mem_cons_self _ _))]
      exact ih (fun x hx => h x (List.mem_cons_of_mem _ hx)) st

theorem groupLoop_ok (doc : FilingDocument)
    (G : List (String × List Transaction))
    (h : ∀ cg ∈ G, (cg.1 = "P" ∨ cg.1 = "S") →
      ∀ a b : ℚ, ∃ out, processGroup doc cg.1 cg.2 a b = Except.ok out)
    (st : ℚ × ℚ × List NormalizedTrade) :
    ∃ st', groupLoop doc st G = Except.ok st' := by
  induction G generalizing st with
  | nil => exact ⟨st, rfl⟩
  | cons cg rest ih =>
      obtain ⟨c0, ts0⟩ := cg
      by_cases hq : c0 = "P" ∨ c0 = "S"
      · obtain ⟨out, hout⟩ :=
          h (c0, ts0) (List.mem_cons_self _ _) hq st.1 st.2.1
        obtain ⟨st', hst'⟩ :=
          ih (fun x hx hxq => h x (List.mem_cons_of_mem _ hx) hxq)
            (out.1, out.2.1, st.2.2 ++ [out.2.2])
        refine ⟨st', ?_⟩
        rw [groupLoop, if_pos hq, bind_ok_iff]
        exact ⟨out, hout, hst'⟩
      · obtain ⟨st', hst'⟩ :=
          ih (fun x hx hxq => h x (List.mem_cons_of_mem _ hx) hxq) st
        exact ⟨st', by rw [groupLoop, if_neg hq]; exact hst'⟩

/-! ## Inversion lemmas and extractor characterization -/

theorem round4_zero : round4 0 = 0 := by
  norm_num [round4, pyRoundInt]

theorem round4_ite (c : Prop) [Decidable c] (x : ℚ) :
    round4 (if c then 0 else x) = if c then 0 else round4 x := by
  by_cases h : c <;> simp [h, round4_zero]

theorem groupByCodingLoop_ok_inv (ts : List Transaction)
    (m G : List (String × List Transaction))
    (h : groupByCodingLoop m ts = Except.ok G) :
    (∀ t ∈ ts, wfCoded t) ∧ G = pureGroup m ts := by
  induction ts generalizing m with
  | nil =>
      rw [groupByCodingLoop] at h
      injection h with h1
      subst h1
      exact ⟨by simp, rfl⟩
  | cons t rest ih =>
      rw [groupByCodingLoop, bind_ok_iff] at h
      obtain ⟨c, hc, hrest⟩ := h
      have hcode : t.coding_code = some c := by
        cases hcc : t.coding_code with
        | none => rw [hcc] at hc; simp [getItem] at hc
        | some c0 =>
            rw [hcc] at hc
            simp [getItem] at hc
            rw [hc]
      obtain ⟨hwfrest, hG⟩ := ih _ hrest
      refine ⟨?_, ?_⟩
      · intro x hx
        rcases List.mem_cons.mp hx with hxe | hxr
        · subst hxe
          simp [wfCoded, hcode]
        · exact hwfrest x hxr
      · rw [pureGroup, hG]
        have : codeD t = c := by simp [codeD, hcode]
        rw [this]

theorem mem_pureGroup_eq_filter (ts : List Transaction) (code : String)
    (g : List Transaction) (hmem : (code, g) ∈ pureGroup [] ts) :
    g = ts.filter (fun t => codeD t == code) := by
  have hnd := nodup_keys_pureGroup ts [] (by simp)
  have hfind := findKeyed_of_mem _ _ _ hnd hmem
  rw [findKeyed_pureGroup] at hfind
  simpa [findKeyed] using hfind.symm

theorem mem_pureGroup_code_mem (ts : List Transaction) (code : String)
    (g : List Transaction) (hmem : (code, g) ∈ pureGroup [] ts) :
    code ∈ ts.map codeD := by
  have := mem_keys_of_mem _ _ _ hmem
  rcases (mem_keys_pureGroup ts [] code).mp this with h | h
  · simp at h
  · exact h

theorem first_share_price_ok (doc : FilingDocument) (h : wfDoc doc)
    (hne : doc.transactions ≠ []) :
    ∃ p, first_share_price doc = Except.ok p := by
  cases htx : doc.transactions with
  | nil => exact absurd htx hne
  | cons t rest =>
      have hwf := (h t (by rw [htx]; exact List.mem_cons_self _ _)).2
      obtain ⟨am, s, o, ot, pta, ham, _, _, _, _⟩ := wfT_destruct t hwf
      refine ⟨am.pricePerShare.getD 0, ?_⟩
      simp [first_share_price, htx, ham, getItem, Bind.bind, Except.bind,
        Pure.pure, Except.pure]

theorem processGroup_ok_inv (doc : FilingDocument) (code : String)
    (g : List Transaction) (ts0 tas0 a b : ℚ) (r : NormalizedTrade)
    (h : processGroup doc code g ts0 tas0 = Except.ok (a, b, r)) :
    r.transaction_type = code ∧
    first_share_price doc = Except.ok r.share_price ∧
    r.change_in_shares_percentage =
      (if r.total_shares_after_transaction = 0 then 0
       else round4 (r.total_shares / r.total_shares_after_transaction * 100)) := by
  rw [processGroup, bind_ok_iff] at h
  obtain ⟨acc, hacc, h⟩ := h
  rw [bind_ok_iff] at h
  obtain ⟨sp, hsp, h⟩ := h
  have hr : r =
      { filling := doc.id
        ticker := doc.issuer.tradingSymbol
        cik := doc.issuer.cik
        transaction_type := code
        ceo_name := doc.reportingOwnerName
        company_name := doc.issuer.name
        total_shares := acc.total_shares
        share_price := sp
        disclosed_date := doc.filedAt
        total_amount_spent := acc.total_amount_spent
        total_shares_after_transaction :=
          (extract_last_item acc.directs ::
            acc.indirect.map (fun kv => extract_last_item kv.2)).sum +
          holdingsSum doc.holdings
        link := doc.link
        change_in_shares_percentage :=
          round4 (if (extract_last_item acc.directs ::
              acc.indirect.map (fun kv => extract_last_item kv.2)).sum +
              holdingsSum doc.holdings ≠ 0 then
            acc.total_shares /
              ((extract_last_item acc.directs ::
                acc.indirect.map (fun kv => extract_last_item kv.2)).sum +
               holdingsSum doc.holdings) * 100
          else 0) } := by
    have := h
    simp only [Pure.pure, Except.pure] at this
    injection this with h2
    have h3 := congrArg (fun x => x.2.2) h2
    simpa using h3.symm
  subst hr
  refine ⟨rfl, hsp, ?_⟩
  simp only [List.sum_cons, ite_not]
  rw [round4_ite]

theorem extract_ok_of_wf (doc : FilingDocument) (h : wfDoc doc) :
    ∃ rs, extract_insider_trades_info_single doc = Except.ok rs := by
  have hgrp : group_transaction_by_coding doc.transactions =
      Except.ok (pureGroup [] doc.transactions) :=
    groupByCodingLoop_ok doc.transactions (fun t ht => (h t ht).1) []
  have hloop : ∃ st', groupLoop doc (0, 0, []) (pureGroup [] doc.transactions) =
      Except.ok st' := by
    apply groupLoop_ok
    rintro ⟨code, g⟩ hmem hq a b
    have hgf := mem_pureGroup_eq_filter _ _ _ hmem
    have hgsub : ∀ t ∈ g, t ∈ doc.transactions := by
      intro t ht
      rw [hgf] at ht
      exact List.mem_of_mem_filter ht
    have hne : doc.transactions ≠ [] := by
      intro hnil
      have := mem_pureGroup_code_mem _ _ _ hmem
      rw [hnil] at this
      simp at this
    obtain ⟨p, hp⟩ := first_share_price_ok doc h hne
    exact ⟨_, processGroup_ok doc code g a b p
      (fun t ht => (h t (hgsub t ht)).2) hp⟩
  obtain ⟨st', hst'⟩ := hloop
  refine ⟨st'.2.2, ?_⟩
  rw [extract_insider_trades_info_single, bind_ok_iff]
  refine ⟨pureGroup [] doc.transactions, hgrp, ?_⟩
  rw [bind_ok_iff]
  exact ⟨st', hst', rfl⟩

theorem extract_ok_inv (doc : FilingDocument) (rs : List NormalizedTrade)
    (h : extract_insider_trades_info_single doc = Except.ok rs) :
    (∀ t ∈ doc.transactions, wfCoded t) ∧
    ∃ st', groupLoop doc (0, 0, []) (pureGroup [] doc.transactions) =
        Except.ok st' ∧ st'.2.2 = rs := by
  rw [extract_insider_trades_info_single, bind_ok_iff] at h
  obtain ⟨G, hG, h⟩ := h
  rw [bind_ok_iff] at h
  obtain ⟨st', hst', hpure⟩ := h
  obtain ⟨hwf, hGp⟩ := groupByCodingLoop_ok_inv doc.transactions [] G hG
  subst hGp
  refine ⟨hwf, st', hst', ?_⟩
  simpa [Pure.pure, Except.pure] using hpure

/-- Every record of a successful extraction comes from a qualifying group of
the coding-keyed partition of the document's transactions. -/
theorem extract_records_origin (doc : FilingDocument)
    (rs : List NormalizedTrade)
    (h : extract_insider_trades_info_single doc = Except.ok rs) :
    ∀ r ∈ rs, ∃ code ts0 tas0 a b,
      (code = "P" ∨ code = "S") ∧
      processGroup doc code
        (doc.transactions.filter (fun t => codeD t == code)) ts0 tas0 =
        Except.ok (a, b, r) := by
  obtain ⟨hwf, st', hst', hrs⟩ := extract_ok_inv doc rs h
  intro r hr
  rw [← hrs] at hr
  rcases groupLoop_mem_records doc _ _ _ hst' r hr with hmem |
    ⟨code, ts, ts0, tas0, a, b, hin, hq, hp⟩
  · simp at hmem
  · have hgf := mem_pureGroup_eq_filter _ _ _ hin
    rw [hgf] at hp
    exact ⟨code, ts0, tas0, a, b, hq, hp⟩


/-! ## Concrete evaluations of the extractor

Rational arithmetic does not reduce definitionally (`Nat.gcd` inside `Rat`
normalisation is well-founded recursion), so concrete runs of the extractor
are evaluated by unfolding the program with `simp` and finishing the
arithmetic with `norm_num`. -/

set_option maxHeartbeats 2000000 in
theorem eval_docPS :
    extract_insider_trades_info_single docPS = Except.ok recsPS := by
  simp +decide [extract_insider_trades_info_single, group_transaction_by_coding,
    groupByCodingLoop, getItem, addKeyed, groupLoop, processGroup,
    groupTransactions, processTransaction, first_share_price,
    extract_last_item, holdingsSum, round4, pyRoundInt, docPS, recsPS,
    mkTransaction, mkDocument, Bind.bind, Except.bind, Pure.pure, Except.pure]
  norm_num [Int.fract]

set_option maxHeartbeats 2000000 in
theorem eval_docW4 :
    extract_insider_trades_info_single docW4 = Except.ok recsW4 := by
  simp +decide [extract_insider_trades_info_single, group_transaction_by_coding,
    groupByCodingLoop, getItem, addKeyed, groupLoop, processGroup,
    groupTransactions, processTransaction, first_share_price,
    extract_last_item, holdingsSum, round4, pyRoundInt, docW4, recsW4,
    mkTransaction, mkDocument, Bind.bind, Except.bind, Pure.pure, Except.pure]
  norm_num [Int.fract]

set_option maxHeartbeats 2000000 in
theorem eval_docZeroTsat :
    extract_insider_trades_info_single docZeroTsat = Except.ok recsZero := by
  simp +decide [extract_insider_trades_info_single, group_transaction_by_coding,
    groupByCodingLoop, getItem, addKeyed, groupLoop, processGroup,
    groupTransactions, processTransaction, first_share_price,
    extract_last_item, holdingsSum, round4, pyRoundInt, docZeroTsat, recsZero,
    mkTransaction, mkDocument, Bind.bind, Except.bind, Pure.pure, Except.pure]
  norm_num

/-! ## Claims C1, C2, C3 -/

/-- Claim C1 (evaluation at the failing input): on `docPS` — one "P" group
(10 shares at 100) and one "S" group (5 shares at 100) — the extractor emits
the "S" record with `totalShares = 15` and `totalAmountSpent = 1500`,
although the "S" group's own sums are 5 and 500: `total_shares` and
`total_amount_spent` are initialised before the group loop (utils.py lines
152-153), so a later qualifying group inherits the earlier group's totals
and the accumulation is not independent per group, contradicting the claim
and the spec's "independently accumulate". -/
theorem claim_C1_code_evaluation :
    Except.map (List.map (fun r =>
        (r.transaction_type, r.total_shares, r.total_amount_spent)))
      (extract_insider_trades_info_single docPS) =
      Except.ok [("P", 10, 1000), ("S", 15, 1500)] ∧
    sumShares (docPS.transactions.filter (fun t => codeD t == "S")) = 5 ∧
    sumSpend (docPS.transactions.filter (fun t => codeD t == "S")) = 500 := by
  refine ⟨?_, ?_, ?_⟩
  · rw [eval_docPS]
    rfl
  · simp +decide [sumShares, sharesOf, codeD, docPS, mkTransaction, mkDocument]
  · simp +decide [sumSpend, sharesOf, priceOf, codeD, docPS, mkTransaction,
      mkDocument]
    norm_num

/-- Claim C2 counterexample: a transaction lacking `amounts.shares` makes the
extractor raise (`KeyError` in the source), not degrade to a default — the
claim's "never raise an error" is false for required fields. -/
theorem claim_C2_counterexample :
    extract_insider_trades_info_single docMissingShares = Except.error () := by
  rfl

/-- Claim C2 (amended): the Trade Extractor degrades gracefully exactly for
the optional fields — a document whose transactions all carry `coding.code`,
`amounts.shares`, `ownershipNature.directOrIndirectOwnership` and
`postTransactionAmounts` is always extracted without error, regardless of
missing `pricePerShare`, `natureOfOwnership`,
`sharesOwnedFollowingTransaction` or holdings fields; a transaction missing
one of the required fields instead raises a `KeyError` (caught by the
per-event handler of the stream loop), as the counterexample shows. -/
theorem claim_C2_amended (doc : FilingDocument) (h : wfDoc doc) :
    ∃ rs, extract_insider_trades_info_single doc = Except.ok rs :=
  extract_ok_of_wf doc h

/-- Witness for the amended claim C2: `docOptMissing` misses every optional
field yet is extracted without error. -/
theorem claim_C2_amended_witness :
    wfDoc docOptMissing ∧
    ∃ rs, extract_insider_trades_info_single docOptMissing = Except.ok rs :=
  ⟨by decide, claim_C2_amended docOptMissing (by decide)⟩

/-- Claim C3: in every emitted record, `changeInSharesPercentage` equals
`(totalShares / totalSharesAfterTransaction) * 100` rounded to 4 decimal
places when `totalSharesAfterTransaction` is non-zero, and 0 when it is 0,
whatever `totalShares` is; the division is guarded by the zero test and the
extractor cannot fail there. -/
theorem claim_C3_change_percentage (doc : FilingDocument)
    (rs : List NormalizedTrade)
    (h : extract_insider_trades_info_single doc = Except.ok rs) :
    ∀ r ∈ rs, r.change_in_shares_percentage =
      (if r.total_shares_after_transaction = 0 then 0
       else round4 (r.total_shares / r.total_shares_after_transaction * 100)) := by
  intro r hr
  obtain ⟨code, ts0, tas0, a, b, hq, hp⟩ := extract_records_origin doc rs h r hr
  exact (processGroup_ok_inv doc code _ ts0 tas0 a b r hp).2.2

/-- Witness for claim C3 at `docZeroTsat`, whose record reports 0 shares
after the transaction and hence a 0 percentage. -/
theorem claim_C3_witness :
    extract_insider_trades_info_single docZeroTsat = Except.ok recsZero ∧
    ∀ r ∈ recsZero, r.change_in_shares_percentage =
      (if r.total_shares_after_transaction = 0 then 0
       else round4 (r.total_shares / r.total_shares_after_transaction * 100)) :=
  ⟨eval_docZeroTsat,
    claim_C3_change_percentage docZeroTsat recsZero eval_docZeroTsat⟩

/-! ## Claim C4 -/

/-- Claim C4 counterexample: on `docOwnX`, whose single "P" transaction has
the unexpected ownership marker "X", the code reports 100 shares after the
transaction (the marker is not "I", so the snapshot lands in the direct
partition), while the claim's formula — last transaction marked literally
"D", plus indirect natures, plus holdings — yields 0. -/
theorem claim_C4_counterexample :
    Except.map (List.map (fun r =>
        (r.transaction_type, r.total_shares_after_transaction)))
      (extract_insider_trades_info_single docOwnX) =
      Except.ok [("P", 100)] ∧
    claimedTotalAfter docOwnX "P" = 0 ∧
    claimedTotalAfter docOwnX "P" ≠ (100 : ℚ) := by
  have h2 : claimedTotalAfter docOwnX "P" = 0 := by
    simp +decide [claimedTotalAfter, directContributionD, indirectContribution,
      indirectNatures, lastOfNature, firstDedup, isIndirect, ownershipOf,
      natureOf, postSharesOf, ptaOf, holdingsSum, codeD, docOwnX,
      mkTransaction, mkDocument]
  refine ⟨?_, h2, by rw [h2]; norm_num⟩
  simp +decide [extract_insider_trades_info_single, group_transaction_by_coding,
    groupByCodingLoop, getItem, addKeyed, groupLoop, processGroup,
    groupTransactions, processTransaction, first_share_price,
    extract_last_item, holdingsSum, round4, pyRoundInt, docOwnX,
    mkTransaction, mkDocument, Bind.bind, Except.bind, Pure.pure, Except.pure,
    Except.map]

/-- Claim C4 (amended): for every well-formed document,
`totalSharesAfterTransaction` of each emitted record equals the
`sharesOwnedFollowingTransaction` of the last transaction of its group whose
`directOrIndirectOwnership` is anything other than "I" (0 if none) — not
only literal "D" markers — plus, for each distinct `natureOfOwnership` among
the group's "I" transactions, the share count of the last transaction with
that nature, plus the share count carried by each holdings entry. -/
theorem claim_C4_amended (doc : FilingDocument) (rs : List NormalizedTrade)
    (hwf : wfDoc doc)
    (h : extract_insider_trades_info_single doc = Except.ok rs) :
    ∀ r ∈ rs, r.total_shares_after_transaction =
      directContribution
        (doc.transactions.filter (fun t => codeD t == r.transaction_type)) +
      indirectContribution
        (doc.transactions.filter (fun t => codeD t == r.transaction_type)) +
      holdingsSum doc.holdings := by
  intro r hr
  obtain ⟨code, ts0, tas0, a, b, hq, hp⟩ := extract_records_origin doc rs h r hr
  have hinv := processGroup_ok_inv doc code _ ts0 tas0 a b r hp
  have hclosed := processGroup_ok doc code
      (doc.transactions.filter (fun t => codeD t == code)) ts0 tas0
      r.share_price
      (fun t ht => (hwf t (List.mem_of_mem_filter ht)).2) hinv.2.1
  have heq := hp.symm.trans hclosed
  injection heq with heq2
  have hrec : r = groupRecord doc code
      (doc.transactions.filter (fun t => codeD t == code)) ts0 tas0
      r.share_price := by
    have := congrArg (fun x => x.2.2) heq2
    simpa using this
  have hfield : r.total_shares_after_transaction =
      directContribution
        (doc.transactions.filter (fun t => codeD t == code)) +
      indirectContribution
        (doc.transactions.filter (fun t => codeD t == code)) +
      holdingsSum doc.holdings := by
    have := congrArg NormalizedTrade.total_shares_after_transaction hrec
    simpa [groupRecord] using this
  rw [hinv.1]
  exact hfield

/-- Witness for the amended claim C4 on the mixed direct/indirect document
`docW4`: 500 (last direct) + 70 (last "By Trust") + 30 ("By Spouse") +
7 (holding) = 607. -/
theorem claim_C4_amended_witness :
    wfDoc docW4 ∧
    extract_insider_trades_info_single docW4 = Except.ok recsW4 ∧
    ∀ r ∈ recsW4, r.total_shares_after_transaction =
      directContribution
        (docW4.transactions.filter (fun t => codeD t == r.transaction_type)) +
      indirectContribution
        (docW4.transactions.filter (fun t => codeD t == r.transaction_type)) +
      holdingsSum docW4.holdings :=
  ⟨by decide, eval_docW4, claim_C4_amended docW4 recsW4 (by decide) eval_docW4⟩

/-! ## Claim C5 -/

theorem first_share_price_inv (doc : FilingDocument) (p : ℚ)
    (h : first_share_price doc = Except.ok p) :
    ∃ t0 rest am, doc.transactions = t0 :: rest ∧ t0.amounts = some am ∧
      p = am.pricePerShare.getD 0 := by
  cases htx : doc.transactions with
  | nil => simp [first_share_price, htx] at h
  | cons t rest =>
      rw [first_share_price] at h
      rw [htx] at h
      rw [bind_ok_iff] at h
      obtain ⟨am, ham, hp⟩ := h
      have ham2 : t.amounts = some am := by
        cases hta : t.amounts with
        | none => rw [hta] at ham; simp [getItem] at ham
        | some a =>
            rw [hta] at ham
            simp [getItem] at ham
            rw [ham]
      have hp2 : p = am.pricePerShare.getD 0 := by
        simpa [Pure.pure, Except.pure] using hp.symm
      exact ⟨t, rest, am, rfl, ham2, hp2⟩

/-- Claim C5: every emitted record's `sharePrice` is the `pricePerShare` of
the first transaction of the document's transaction table (default 0 when
that key is absent), and it is the same for every record of the document,
whatever coding group the record is for. -/
theorem claim_C5_share_price (doc : FilingDocument)
    (rs : List NormalizedTrade)
    (h : extract_insider_trades_info_single doc = Except.ok rs) :
    ∀ r ∈ rs, (∃ t0 rest am, doc.transactions = t0 :: rest ∧
        t0.amounts = some am ∧ r.share_price = am.pricePerShare.getD 0) ∧
      ∀ r2 ∈ rs, r2.share_price = r.share_price := by
  intro r hr
  obtain ⟨code, ts0, tas0, a, b, hq, hp⟩ := extract_records_origin doc rs h r hr
  have hfp := (processGroup_ok_inv doc code _ ts0 tas0 a b r hp).2.1
  obtain ⟨t0, rest, am, htx, ham, hpeq⟩ := first_share_price_inv doc _ hfp
  refine ⟨⟨t0, rest, am, htx, ham, hpeq⟩, ?_⟩
  intro r2 hr2
  obtain ⟨code2, ts02, tas02, a2, b2, hq2, hp2⟩ :=
    extract_records_origin doc rs h r2 hr2
  have hfp2 := (processGroup_ok_inv doc code2 _ ts02 tas02 a2 b2 r2 hp2).2.1
  have := hfp.symm.trans hfp2
  injection this with h2
  exact h2.symm

/-- Witness for claim C5 on the two-group document `docPS`: both the "P" and
the "S" record carry the first transaction's price 100. -/
theorem claim_C5_witness :
    extract_insider_trades_info_single docPS = Except.ok recsPS ∧
    ∀ r ∈ recsPS, (∃ t0 rest am, docPS.transactions = t0 :: rest ∧
        t0.amounts = some am ∧ r.share_price = am.pricePerShare.getD 0) ∧
      ∀ r2 ∈ recsPS, r2.share_price = r.share_price :=
  ⟨eval_docPS, claim_C5_share_price docPS recsPS eval_docPS⟩

/-! ## Claims C6 and C7 -/

theorem countP_PS (K : List String) :
    K.countP (fun c => decide (c = "P" ∨ c = "S")) =
      K.count "P" + K.count "S" := by
  induction K with
  | nil => simp
  | cons k ks ih =>
      rw [List.countP_cons, List.count_cons, List.count_cons, ih]
      by_cases hP : k = "P"
      · subst hP
        simp
        omega
      · by_cases hS : k = "S"
        · subst hS
          simp [hP]
          omega
        · simp [hP, hS]

/-- Claim C6: a document whose transactions include (exactly) one group
coded "P" and one coded "S" — that is, at least one transaction of each of
those codes, the groups being keyed by distinct codes — yields exactly two
records, one with `transactionType` "P" and one with "S". -/
theorem claim_C6_two_records (doc : FilingDocument)
    (rs : List NormalizedTrade)
    (h : extract_insider_trades_info_single doc = Except.ok rs)
    (hP : ∃ t ∈ doc.transactions, t.coding_code = some "P")
    (hS : ∃ t ∈ doc.transactions, t.coding_code = some "S") :
    rs.length = 2 ∧ (∃ r ∈ rs, r.transaction_type = "P") ∧
      ∃ r ∈ rs, r.transaction_type = "S" := by
  obtain ⟨hwf, st', hst', hrs⟩ := extract_ok_inv doc rs h
  have hndk := nodup_keys_pureGroup doc.transactions [] (by simp)
  have hPk : "P" ∈ (pureGroup [] doc.transactions).map Prod.fst := by
    rw [mem_keys_pureGroup]
    right
    obtain ⟨t, ht, hc⟩ := hP
    exact List.mem_map.mpr ⟨t, ht, by simp [codeD, hc]⟩
  have hSk : "S" ∈ (pureGroup [] doc.transactions).map Prod.fst := by
    rw [mem_keys_pureGroup]
    right
    obtain ⟨t, ht, hc⟩ := hS
    exact List.mem_map.mpr ⟨t, ht, by simp [codeD, hc]⟩
  refine ⟨?_, ?_, ?_⟩
  · have hlen := groupLoop_length doc _ _ _ hst'
    rw [hrs] at hlen
    rw [hlen]
    have hcnt : ((pureGroup [] doc.transactions).filter
        (fun cg => decide (cg.1 = "P" ∨ cg.1 = "S"))).length = 2 := by
      rw [← List.countP_eq_length_filter]
      have hmapcnt :
          List.countP (fun c => decide (c = "P" ∨ c = "S"))
            ((pureGroup [] doc.transactions).map Prod.fst) =
          List.countP (fun cg => decide (cg.1 = "P" ∨ cg.1 = "S"))
            (pureGroup [] doc.transactions) :=
        List.countP_map _ _ _
      rw [← hmapcnt, countP_PS,
        List.count_eq_one_of_mem hndk hPk,
        List.count_eq_one_of_mem hndk hSk]
    rw [hcnt]
    simp
  · obtain ⟨⟨c, g⟩, he, hfst⟩ := List.mem_map.mp hPk
    simp only at hfst
    subst hfst
    obtain ⟨r, hr, ts0, tas0, a, b, hpg⟩ :=
      groupLoop_exists_record doc _ _ _ hst' _ g he (Or.inl rfl)
    refine ⟨r, by rw [← hrs]; exact hr, ?_⟩
    exact (processGroup_ok_inv doc _ g ts0 tas0 a b r hpg).1
  · obtain ⟨⟨c, g⟩, he, hfst⟩ := List.mem_map.mp hSk
    simp only at hfst
    subst hfst
    obtain ⟨r, hr, ts0, tas0, a, b, hpg⟩ :=
      groupLoop_exists_record doc _ _ _ hst' _ g he (Or.inr rfl)
    refine ⟨r, by rw [← hrs]; exact hr, ?_⟩
    exact (processGroup_ok_inv doc _ g ts0 tas0 a b r hpg).1

/-- Witness for claim C6 on `docPS`: two records, one "P" and one "S". -/
theorem claim_C6_witness :
    (∃ t ∈ docPS.transactions, t.coding_code = some "P") ∧
    (∃ t ∈ docPS.transactions, t.coding_code = some "S") ∧
    (recsPS.length = 2 ∧ (∃ r ∈ recsPS, r.transaction_type = "P") ∧
      ∃ r ∈ recsPS, r.transaction_type = "S") :=
  ⟨by decide, by decide,
    claim_C6_two_records docPS recsPS eval_docPS (by decide) (by decide)⟩

/-- Claim C7: a document none of whose transactions is coded "P" or "S"
(gifts, grants, exercises and any other codes are ignored) is extracted to
the empty record list — a result, not an error. -/
theorem claim_C7_no_PS_empty (doc : FilingDocument)
    (hcoded : ∀ t ∈ doc.transactions, wfCoded t)
    (hnoPS : ∀ t ∈ doc.transactions,
      t.coding_code ≠ some "P" ∧ t.coding_code ≠ some "S") :
    extract_insider_trades_info_single doc = Except.ok [] := by
  have hgrp := groupByCodingLoop_ok doc.transactions hcoded []
  have hskip : ∀ cg ∈ pureGroup [] doc.transactions,
      ¬(cg.1 = "P" ∨ cg.1 = "S") := by
    rintro ⟨c, g⟩ hmem hor
    have hck := mem_pureGroup_code_mem _ _ _ hmem
    obtain ⟨t, ht, hct⟩ := List.mem_map.mp hck
    obtain ⟨c0, hc0⟩ := Option.isSome_iff_exists.mp (hcoded t ht)
    have hc0c : c0 = c := by
      rw [codeD, hc0] at hct
      simpa using hct
    subst hc0c
    simp only at hor
    rcases hor with rfl | rfl
    · exact (hnoPS t ht).1 hc0
    · exact (hnoPS t ht).2 hc0
  rw [extract_insider_trades_info_single, bind_ok_iff]
  refine ⟨_, hgrp, ?_⟩
  rw [bind_ok_iff]
  exact ⟨(0, 0, []), groupLoop_skip doc _ hskip _, rfl⟩

/-- Witness for claim C7 on `docNoPS` (one "A" and one "M" transaction). -/
theorem claim_C7_witness :
    (∀ t ∈ docNoPS.transactions, wfCoded t) ∧
    (∀ t ∈ docNoPS.transactions,
      t.coding_code ≠ some "P" ∧ t.coding_code ≠ some "S") ∧
    extract_insider_trades_info_single docNoPS = Except.ok [] :=
  ⟨by decide, by decide, claim_C7_no_PS_empty docNoPS (by decide) (by decide)⟩

/-! ## Claim C8 -/

/-- Claim C8: the reconnect loop of `main`, modelled as the labelled
transition system `cmStep`/`cmRun`: (i) after 10 consecutive failed connect
attempts from a fresh start it is in the terminal `stopped` state, exactly
10 attempts having been issued, and from `stopped` no input ever produces
another action or leaves the state; (ii) a successful connection resets the
retry counter to 0; (iii) every failure whose incremented counter is still
below the bound of 10 is followed by a fixed 5-unit sleep, and only after
the wake-up is the next connect attempt made. -/
theorem claim_C8_connection_manager :
    ((cmRun (CMState.connecting 0) (failTrace 10)).1 = CMState.stopped ∧
      ((cmRun (CMState.connecting 0) (failTrace 10)).2.count
        CMAction.attempt = 10)) ∧
    (∀ l : List CMInput, cmRun CMState.stopped l = (CMState.stopped, [])) ∧
    (∀ r : ℕ, cmStep (CMState.connecting r) CMInput.connOk =
      (CMState.connected 0, [CMAction.attempt])) ∧
    (∀ r : ℕ, r + 1 < maxRetries →
      cmStep (CMState.connecting r) CMInput.connFail =
        (CMState.backoff (r + 1),
          [CMAction.attempt, CMAction.sleep backoffUnits]) ∧
      cmStep (CMState.backoff (r + 1)) CMInput.wake =
        (CMState.connecting (r + 1), []) ∧
      backoffUnits = 5) := by
  refine ⟨⟨by decide, by decide⟩, ?_, ?_, ?_⟩
  · intro l
    induction l with
    | nil => rfl
    | cons i is ih => cases i <;> simp [cmRun, cmStep, ih]
  · intro r
    rfl
  · intro r h
    have hlt : ¬ (r + 1 ≥ maxRetries) := Nat.not_le.mpr h
    exact ⟨by simp [cmStep, hlt], rfl, rfl⟩

/-- Witness for claim C8, applying the pre-bound backoff transition at
retry counter 3. -/
theorem claim_C8_witness :
    (3 : ℕ) + 1 < maxRetries ∧
    (cmStep (CMState.connecting 3) CMInput.connFail =
        (CMState.backoff (3 + 1),
          [CMAction.attempt, CMAction.sleep backoffUnits]) ∧
      cmStep (CMState.backoff (3 + 1)) CMInput.wake =
        (CMState.connecting (3 + 1), []) ∧
      backoffUnits = 5) :=
  ⟨by decide, claim_C8_connection_manager.2.2.2 3 (by decide)⟩

/-! ## Claims C9 and C10 -/

/-- Claim C9 counterexample: the receive loop awaits each event's pipeline
inline (`for f in filings: await on_filings(f)`), so with one candidate
event in the first message the second `recv` happens only at time 15 — the
settle delay does stall ingestion of subsequent stream messages, contrary to
the claim that pipelines run as independent concurrent tasks. -/
theorem claim_C9_counterexample :
    recvTime exMsgs 1 = settleDelay ∧
    recvTime exMsgs 1 ≠ recvTime exMsgs 0 := by
  refine ⟨by decide, by decide⟩

/-- Claim C9 (amended): event pipelines are awaited sequentially inside the
receive loop, so the k+1-st receive is delayed by exactly the total inline
pipeline cost of the k-th message, and every accepted (candidate) event
contributes the full 15-unit settle delay to that cost. -/
theorem claim_C9_amended :
    (∀ (msgs : List (List FilingEvent)) (k : ℕ),
      recvTime msgs (k + 1) = recvTime msgs k + messageCost (msgs.getD k [])) ∧
    ∀ f : FilingEvent, eventCost f = if is_candidate f then 15 else 0 := by
  constructor
  · intro msgs k
    rw [recvTime, recvTime, List.take_succ, List.map_append, List.sum_append]
    have hgd : msgs.getD k [] = (msgs[k]?).getD [] := by
      rw [List.getD_eq_getD_get?, List.get?_eq_getElem?]
    rw [hgd]
    cases hk : msgs[k]? with
    | none => simp [hk, messageCost]
    | some m => simp [hk]
  · intro f
    rfl

/-- Claim C10: in the group loop, every transaction whose
`directOrIndirectOwnership` is any value other than "I" — not only "D" — is
classified as direct: its `postTransactionAmounts` snapshot is appended to
the direct partition (the indirect dictionary untouched), and on
`docOwnEmpty`, whose single transaction carries the empty-string marker,
that snapshot becomes the direct contribution: 100 shares after the
transaction. -/
theorem claim_C10_non_I_is_direct :
    (∀ (acc : GroupAcc) (t : Transaction), wfT t → isIndirect t = false →
      processTransaction acc t = Except.ok
        { total_shares := acc.total_shares + sharesOf t
          total_amount_spent := acc.total_amount_spent + sharesOf t * priceOf t
          directs := acc.directs ++ [ptaOf t]
          indirect := acc.indirect }) ∧
    Except.map (List.map (fun r => r.total_shares_after_transaction))
      (extract_insider_trades_info_single docOwnEmpty) =
      Except.ok [100] := by
  constructor
  · intro acc t hwf hind
    have hstep := processTransaction_ok acc t hwf
    rw [hind] at hstep
    simpa using hstep
  · simp +decide [extract_insider_trades_info_single,
      group_transaction_by_coding, groupByCodingLoop, getItem, addKeyed,
      groupLoop, processGroup, groupTransactions, processTransaction,
      first_share_price, extract_last_item, holdingsSum, round4, pyRoundInt,
      docOwnEmpty, txOwnEmpty, mkTransaction, mkDocument, Bind.bind,
      Except.bind, Pure.pure, Except.pure, Except.map]

/-- Witness for claim C10's universally quantified part, at the
empty-string-marker transaction and the empty accumulator. -/
theorem claim_C10_witness :
    wfT txOwnEmpty ∧ isIndirect txOwnEmpty = false ∧
    processTransaction ⟨0, 0, [], []⟩ txOwnEmpty = Except.ok
      { total_shares := (0 : ℚ) + sharesOf txOwnEmpty
        total_amount_spent := (0 : ℚ) + sharesOf txOwnEmpty * priceOf txOwnEmpty
        directs := ([] : List PostTransactionAmounts) ++ [ptaOf txOwnEmpty]
        indirect := [] } :=
  ⟨by decide, by decide,
    claim_C10_non_I_is_direct.1 ⟨0, 0, [], []⟩ txOwnEmpty (by decide) (by decide)⟩

end InsiderTrades
